import Mathlib

/-!
Verification development for the rule-lifecycle scripts of the
`2Shadowrocket-to-AdGuard-Home` repository.

The scripts maintain a persisted JSON map `delete_counter.json` from rule
strings to consecutive-failure counters, probe each rule's extracted domain
over DNS, and retain / skip / evict rules based on the counters.  The pure
decision logic of the Python sources is embedded shallowly below:

* `extractDomain`, `check_domain`      — `split_and_check_16.py` / `validate.py`
* `skipPhase`, `updatePhase`, `process_part`
                                       — `split_and_check_16.py::process_part`
* `vStep`, `validate_core`             — `validate.py::validate_part`
* `filter_and_update_high_delete_count_rules`
                                       — `split_and_check_16.py`
* `fvExtract`, `domainRegexMatch`, `is_valid_domain`, `validate_batch`
                                       — `fast_validate.py`
* `sv_validate_dns`                    — `split_and_validate.py::validate_dns`
* `load_json`, `load_delete_counter`, `sv_load_delete_counter`
                                       — the three state-file loaders

DNS network behaviour is abstracted as an oracle `String → DnsRes` giving the
resolver outcome for each domain; everything else is computed exactly as in
the sources.
-/

/-- Outcome of one DNS resolution attempt, as distinguished by the sources'
`try/except` clauses: success, explicit NXDOMAIN, and the other error classes
(`dns.resolver.NoAnswer`, timeout, SERVFAIL via `NoNameservers`, REFUSED). -/
inductive DnsRes where
  | ok
  | nxdomain
  | noAnswer
  | timeout
  | servfail
  | refused
deriving DecidableEq

/-- The persisted `delete_counter.json` map: rule string → failure counter.
Modelled as an association list with first-occurrence lookup (JSON objects
have unique keys, so this coincides with Python `dict` semantics). -/
abbrev Cnt := List (String × Nat)

/-- `m.get(k)` on the counter map. -/
def cLookup : Cnt → String → Option Nat
  | [], _ => none
  | p :: rest, k => if p.1 = k then some p.2 else cLookup rest k

/-- `m.get(k, d)` on the counter map. -/
def cGetD (m : Cnt) (k : String) (d : Nat) : Nat :=
  (cLookup m k).getD d

/-- `m[k] = v` on the counter map: overwrite the first binding or append. -/
def cSet : Cnt → String → Nat → Cnt
  | [], k, v => [(k, v)]
  | p :: rest, k, v => if p.1 = k then (k, v) :: rest else p :: cSet rest k v

/-- Retained-rule sets are lists with set semantics: `add` inserts when absent. -/
def sInsert (s : List String) (r : String) : List String :=
  if r ∈ s then s else s ++ [r]

/-- `set.discard`: removes every copy of `r`. -/
def sErase (s : List String) (r : String) : List String :=
  s.filter (fun x => x != r)

/-- `DELETE_THRESHOLD = 4` from `split_and_check_16.py` / `validate.py`. -/
def DELETE_THRESHOLD : Nat := 4

/-- Domain extraction from `split_and_check_16.py::check_domain` and
`validate.py::check_domain`:
`rule.lstrip("|").split("^")[0].replace("*", "")`. -/
def extractDomain (rule : String) : String :=
  String.mk (((rule.data.dropWhile (· = '|')).takeWhile (· ≠ '^')).filter (· ≠ '*'))

/-- `check_domain` from `split_and_check_16.py` / `validate.py`: empty domain
returns `None` without touching the resolver; otherwise a successful
resolution returns the rule and every exception returns `None`. -/
def check_domain (dns : String → DnsRes) (rule : String) : Option String :=
  let domain := extractDomain rule
  if domain = "" then none
  else if dns domain = DnsRes.ok then some rule else none

/-- First loop of `process_part` (lines 301–307 of `split_and_check_16.py`):
each rule with `delete_counter.get(r, 4) < 7` is queued for validation,
the rest get their counter incremented (skip round).  The dict is read and
mutated in place while iterating, which the recursion reproduces. -/
def skipPhase : Cnt → List String → Cnt × List String
  | dc, [] => (dc, [])
  | dc, r :: rest =>
    if cGetD dc r 4 < 7 then
      let p := skipPhase dc rest
      (p.1, r :: p.2)
    else
      skipPhase (cSet dc r (cGetD dc r 4 + 1)) rest

/-- Result of the second loop of `process_part`. -/
structure UOut where
  dc : Cnt
  finalRules : List String
  added : Nat
  removed : Nat
deriving DecidableEq

/-- Second loop of `process_part` (lines 313–324): membership of a queued rule
in `valid = dns_validate(rules_to_validate)` is equivalent to
`(check_domain dns r).isSome`, since `dns_validate` keeps exactly the rules
whose `check_domain` returned the rule itself. -/
def updatePhase (dns : String → DnsRes) : Cnt → List String → List String → Nat → Nat → UOut
  | dc, fin, [], a, b => ⟨dc, fin, a, b⟩
  | dc, fin, r :: rest, a, b =>
    if (check_domain dns r).isSome then
      updatePhase dns (cSet dc r 0) (sInsert fin r) rest (a + 1) b
    else
      let c := cGetD dc r 0 + 1
      if DELETE_THRESHOLD ≤ c then
        updatePhase dns (cSet dc r c) (sErase fin r) rest a (b + 1)
      else
        updatePhase dns (cSet dc r c) fin rest a b

/-- Result of one `process_part` run: the saved counter map, the retained set
(`final_rules`), the probed queue (`rules_to_validate`) and the two stats. -/
structure PartOut where
  dc : Cnt
  finalRules : List String
  toValidate : List String
  added : Nat
  removed : Nat
deriving DecidableEq

/-- `process_part(part)` from `split_and_check_16.py`, with I/O factored out:
`lines` is the downloaded shard, `old` the previously retained rules read from
`validated_part_X.txt` (`final_rules = set(old_rules)` is the starting retained
set), `dc0` the loaded `delete_counter.json`. -/
def process_part (dns : String → DnsRes) (lines old : List String) (dc0 : Cnt) : PartOut :=
  let s := skipPhase dc0 lines
  let u := updatePhase dns s.1 old s.2 0 0
  ⟨u.dc, u.finalRules, s.2, u.added, u.removed⟩

/-- Rounds of `process_part` chained as the scripts chain them: each round
reads back the previous round's `validated_part_X.txt` and
`delete_counter.json`. -/
def processRounds (dns : String → DnsRes) (lines : List String) :
    List String × Cnt → Nat → List String × Cnt
  | st, 0 => st
  | st, n + 1 =>
    let o := process_part dns lines st.1 st.2
    processRounds dns lines (o.finalRules, o.dc) n

/-- Lexicographic comparison of character lists by code point — the order
Python's `sorted` uses on strings. -/
def lexLe : List Char → List Char → Bool
  | [], _ => true
  | _ :: _, [] => false
  | a :: as, b :: bs => if a = b then lexLe as bs else decide (a < b)

/-- Python's string order, lifted to `String`. -/
def pyLe (a b : String) : Prop :=
  lexLe a.data b.data = true

instance : DecidableRel pyLe :=
  fun a b => instDecidableEqBool (lexLe a.data b.data) true

/-- `"\n".join(sorted(final_rules))`: the sorted, duplicate-free rendering of a
retained set, as written to `validated_part_X.txt`. -/
def sortedOutput (l : List String) : List String :=
  List.insertionSort pyLe l.dedup

/-- The retained-rule file content written by `process_part` (line 333 of
`split_and_check_16.py`), as a list of lines. -/
def process_part_out (dns : String → DnsRes) (lines old : List String) (dc0 : Cnt) :
    List String :=
  sortedOutput (process_part dns lines old dc0).finalRules

/-- Result of one `validate_part` run from `validate.py`. -/
structure VOut where
  ndc : Cnt
  finalRules : List String
  added : Nat
  removed : Nat
deriving DecidableEq

/-- Body of the per-rule loop of `validate.py::validate_part` (lines 85–100).
`rule in valid` there means: the rule was in the probed shard `lines` and its
`check_domain` succeeded (only `lines` is passed to `dns_validate`).  The old
counter is read from the loaded `delete_counter`, the new value is written to
the fresh `new_delete_counter`. -/
def vStep (dns : String → DnsRes) (lines old : List String) (dc : Cnt)
    (acc : VOut) (r : String) : VOut :=
  if r ∈ lines ∧ (check_domain dns r).isSome = true then
    ⟨cSet acc.ndc r 0, sInsert acc.finalRules r,
      acc.added + (if r ∈ old then 0 else 1), acc.removed⟩
  else
    let c := cGetD dc r 0 + 1
    if DELETE_THRESHOLD ≤ c then
      ⟨cSet acc.ndc r c, acc.finalRules, acc.added, acc.removed + 1⟩
    else
      ⟨cSet acc.ndc r c, sInsert acc.finalRules r, acc.added, acc.removed⟩

/-- `validate.py::validate_part` with I/O factored out: it iterates over
`old_rules | set(lines)` (each candidate exactly once; the Python set-iteration
order is irrelevant because each rule is touched once and rules are
independent), builds `new_delete_counter` from scratch and the retained set
from empty, then persists `new_delete_counter` — dropping every entry for a
rule outside this run's candidate set. -/
def validate_core (dns : String → DnsRes) (lines old : List String) (dc : Cnt) : VOut :=
  ((old ++ lines).dedup).foldl (vStep dns lines old dc) ⟨[], [], 0, 0⟩

/-- The retained-rule file content written by `validate.py::validate_part`
(line 105), as a list of lines. -/
def validate_part_out (dns : String → DnsRes) (lines old : List String) (dc : Cnt) :
    List String :=
  sortedOutput (validate_core dns lines old dc).finalRules

/-- Loop body of `filter_and_update_high_delete_count_rules`
(`split_and_check_16.py` lines 116–123): counters are read from the loaded
`delete_counter` (`dc`) and written to the copied `updated_delete_counter`
(the accumulator); rules with counter below 7 are kept for validation, the
rest get incremented and are reset to 5 once the incremented value
reaches 17. -/
def filter_and_update_high_delete_count_rules (dc : Cnt) (allRules : List String) :
    List String × Cnt :=
  allRules.foldl
    (fun acc rule =>
      let c := cGetD dc rule 4
      if c < 7 then (acc.1 ++ [rule], acc.2)
      else
        let v := if 17 ≤ c + 1 then 5 else c + 1
        (acc.1, cSet acc.2 rule v))
    ([], dc)

/-- Iterated download rounds: each round feeds the saved counter map back into
`filter_and_update_high_delete_count_rules`. -/
def filterRounds (allRules : List String) : Cnt → Nat → Cnt
  | dc, 0 => dc
  | dc, n + 1 =>
    filterRounds allRules (filter_and_update_high_delete_count_rules dc allRules).2 n

/-- `str.strip()` on the character list. -/
def trimChars (l : List Char) : List Char :=
  ((l.dropWhile Char.isWhitespace).reverse.dropWhile Char.isWhitespace).reverse

/-- `replace("||", "")`: removes non-overlapping occurrences left to right. -/
def removeBars : List Char → List Char
  | '|' :: '|' :: rest => removeBars rest
  | c :: rest => c :: removeBars rest
  | [] => []

/-- `fast_validate.py::extract_domain`:
`rule.strip().lstrip("|").lstrip("@@").split("^")[0]` then
`.replace("*", "").replace("||", "")`. -/
def fvExtract (rule : String) : String :=
  let l := trimChars rule.data
  let l := l.dropWhile (· = '|')
  let l := l.dropWhile (· = '@')
  let l := l.takeWhile (· ≠ '^')
  let l := l.filter (· ≠ '*')
  String.mk (removeBars l)

/-- A character of `[A-Za-z0-9-]`. -/
def isLabelChar (c : Char) : Bool :=
  c.isAlpha || c.isDigit || c = '-'

/-- Split a character list at `'.'` separators. -/
def splitDots : List Char → List (List Char)
  | [] => [[]]
  | c :: rest =>
    match splitDots rest with
    | [] => [[]]
    | p :: ps => if c = '.' then [] :: p :: ps else (c :: p) :: ps

/-- `fast_validate.py`'s `domain_regex`
`^(?!-)([A-Za-z0-9-]{1,63}\.)+[A-Za-z]{2,}$`: since labels cannot contain a
dot and the TLD cannot either, a string matches exactly when it does not start
with `-`, splits on dots into at least one label plus a final TLD, every label
has 1–63 characters of `[A-Za-z0-9-]`, and the TLD is 2 or more letters. -/
def domainRegexMatch (s : String) : Bool :=
  match s.data with
  | [] => false
  | c :: _ =>
    if c = '-' then false
    else
      match (splitDots s.data).reverse with
      | [] => false
      | tld :: revLabels =>
        decide (2 ≤ tld.length) && tld.all Char.isAlpha &&
        decide (1 ≤ revLabels.length) &&
        revLabels.all
          (fun p => decide (1 ≤ p.length) && decide (p.length ≤ 63) && p.all isLabelChar)

/-- `fast_validate.py::is_valid_domain`: empty or non-matching domains are
invalid without probing; otherwise NXDOMAIN is invalid and every other
outcome — success, SERVFAIL, REFUSED, timeout, no-answer — is valid. -/
def is_valid_domain (dns : String → DnsRes) (rule : String) : Bool :=
  let domain := fvExtract rule
  if domain = "" ∨ domainRegexMatch domain = false then false
  else
    match dns domain with
    | DnsRes.nxdomain => false
    | _ => true

/-- `line.startswith("#")` on the raw line. -/
def startsHash (l : String) : Bool :=
  match l.data with
  | '#' :: _ => true
  | _ => false

/-- `fast_validate.py::validate_batch` with I/O factored out: the input file's
lines are filtered (`line.strip()` truthy and not starting with `#`, the
`startswith` test applied to the raw line), stripped, validated, and the valid
rules are written joined by newlines **in input order**. -/
def validate_batch (dns : String → DnsRes) (inputLines : List String) : List String :=
  let rules := (inputLines.filter
    (fun l => !(String.mk (trimChars l.data) == "") && !(startsHash l))).map
    (fun l => String.mk (trimChars l.data))
  rules.filter (is_valid_domain dns)

/-- `split_and_validate.py::validate_dns` (lines 74–79): success is `True`,
`NoAnswer` / `NXDOMAIN` / `Timeout` are caught and give `False`, any other
resolver exception (e.g. `NoNameservers` for SERVFAIL, REFUSED) is uncaught
and propagates, modelled as `Except.error`. -/
def sv_validate_dns : DnsRes → Except Unit Bool
  | DnsRes.ok => Except.ok true
  | DnsRes.noAnswer => Except.ok false
  | DnsRes.nxdomain => Except.ok false
  | DnsRes.timeout => Except.ok false
  | DnsRes.servfail => Except.error ()
  | DnsRes.refused => Except.error ()

/-- Observable state of a persisted JSON state file. -/
inductive FileState where
  | missing
  | malformed
  | wellFormed (m : Cnt)
deriving DecidableEq

/-- `split_and_check_16.py::load_json`: a missing file is created as `{}` and
an unreadable/corrupted file is caught (`except Exception`), logged and
treated as `{}`; only a well-formed file yields its contents. -/
def load_json : FileState → Cnt
  | FileState.missing => []
  | FileState.malformed => []
  | FileState.wellFormed m => m

/-- `validate.py::load_delete_counter`: a missing file yields `{}`, but
`json.load` is not guarded, so a malformed file raises `JSONDecodeError`. -/
def load_delete_counter : FileState → Except String Cnt
  | FileState.missing => Except.ok []
  | FileState.malformed => Except.error "JSONDecodeError"
  | FileState.wellFormed m => Except.ok m

/-- `split_and_validate.py::load_delete_counter`: a missing file yields
`defaultdict(int)` (empty), but `json.load` is again unguarded, so a malformed
file raises `JSONDecodeError`. -/
def sv_load_delete_counter : FileState → Except String Cnt
  | FileState.missing => Except.ok []
  | FileState.malformed => Except.error "JSONDecodeError"
  | FileState.wellFormed m => Except.ok m

/-! ### Basic lemmas about the map and set operations -/

theorem cLookup_cSet (m : Cnt) (k : String) (v : Nat) (q : String) :
    cLookup (cSet m k v) q = if k = q then some v else cLookup m q := by
  induction m with
  | nil => simp [cSet, cLookup]
  | cons p rest ih =>
    by_cases h : p.1 = k
    · subst h
      simp only [cSet, if_pos rfl, cLookup]
      by_cases hq : p.1 = q <;> simp [hq]
    · simp only [cSet, if_neg h, cLookup]
      by_cases hq : p.1 = q
      · have : ¬ k = q := fun e => h (e ▸ hq)
        simp [hq, this]
      · simp [hq, ih]

theorem mem_sInsert (s : List String) (r x : String) :
    x ∈ sInsert s r ↔ x = r ∨ x ∈ s := by
  unfold sInsert
  by_cases h : r ∈ s
  · simp only [if_pos h]
    constructor
    · exact Or.inr
    · rintro (rfl | hx)
      · exact h
      · exact hx
  · simp [if_neg h, List.mem_append, or_comm]

theorem mem_sErase (s : List String) (r x : String) :
    x ∈ sErase s r ↔ x ∈ s ∧ x ≠ r := by
  simp [sErase, List.mem_filter, bne_iff_ne]

/-- Number of occurrences of `k` in a list of rules. -/
def occ (k : String) : List String → Nat
  | [] => 0
  | x :: rest => occ k rest + (if x = k then 1 else 0)

theorem occ_eq_zero {k : String} {l : List String} : occ k l = 0 ↔ k ∉ l := by
  induction l with
  | nil => simp [occ]
  | cons x rest ih =>
    by_cases h : x = k
    · subst h; simp [occ]
    · have hkx : k ≠ x := fun e => h e.symm
      simp [occ, h, ih, hkx]

theorem occ_nodup_mem {k : String} {l : List String} (hN : l.Nodup) (hk : k ∈ l) :
    occ k l = 1 := by
  induction l with
  | nil => cases hk
  | cons x rest ih =>
    rcases List.nodup_cons.mp hN with ⟨hx, hrest⟩
    rcases List.mem_cons.mp hk with rfl | hk
    · have : occ k rest = 0 := occ_eq_zero.mpr hx
      simp [occ, this]
    · have hne : x ≠ k := fun e => hx (e ▸ hk)
      simp [occ, hne, ih hrest hk]

/-! ### Per-key evolution of the counter through the two loops -/

/-- Effect of one processed occurrence on a rule's counter in the second loop
of `process_part`: success resets to 0, failure increments from default 0. -/
def failStep (ok : Bool) (v : Option Nat) : Option Nat :=
  if ok then some 0 else some (v.getD 0 + 1)

/-- `n` processed occurrences, first occurrence first. -/
def iterStep (ok : Bool) : Nat → Option Nat → Option Nat
  | 0, v => v
  | n + 1, v => iterStep ok n (failStep ok v)

/-- Effect of one occurrence on a rule's counter in the first loop of
`process_part`: counters below 7 (default 4) are untouched, the rest are
incremented. -/
def skipOp (v : Option Nat) : Option Nat :=
  if v.getD 4 < 7 then v else some (v.getD 4 + 1)

/-- Whether the occurrence is queued for validation. -/
def skipEmit (v : Option Nat) : Nat :=
  if v.getD 4 < 7 then 1 else 0

/-- `n` occurrences through the first loop: final counter value and how many
copies were queued for validation. -/
def skipIter : Nat → Option Nat → Option Nat × Nat
  | 0, v => (v, 0)
  | n + 1, v => ((skipIter n (skipOp v)).1, (skipIter n (skipOp v)).2 + skipEmit v)

theorem up_dc (dns : String → DnsRes) (k : String) :
    ∀ (tv : List String) (dc : Cnt) (fin : List String) (a b : Nat),
      cLookup (updatePhase dns dc fin tv a b).dc k =
        iterStep ((check_domain dns k).isSome) (occ k tv) (cLookup dc k) := by
  intro tv
  induction tv with
  | nil => intro dc fin a b; simp [updatePhase, occ, iterStep]
  | cons r rest ih =>
    intro dc fin a b
    by_cases hr : r = k
    · subst hr
      simp only [occ, if_pos rfl]
      by_cases hok : (check_domain dns r).isSome
      · simp only [updatePhase, if_pos hok, ih]
        simp [iterStep, failStep, hok, cLookup_cSet]
      · simp only [updatePhase, if_neg hok]
        by_cases h4 : DELETE_THRESHOLD ≤ cGetD dc r 0 + 1
        · simp only [if_pos h4, ih]
          simp [iterStep, failStep, hok, cLookup_cSet, cGetD]
        · simp only [if_neg h4, ih]
          simp [iterStep, failStep, hok, cLookup_cSet, cGetD]
    · have hocc : occ k (r :: rest) = occ k rest := by simp [occ, hr]
      rw [hocc]
      by_cases hok : (check_domain dns r).isSome
      · simp only [updatePhase, if_pos hok, ih]
        simp [cLookup_cSet, hr]
      · by_cases h4 : DELETE_THRESHOLD ≤ cGetD dc r 0 + 1
        · simp only [updatePhase, if_neg hok, if_pos h4, ih]
          simp [cLookup_cSet, hr]
        · simp only [updatePhase, if_neg hok, if_neg h4, ih]
          simp [cLookup_cSet, hr]

theorem up_fin_frame (dns : String → DnsRes) (k : String) :
    ∀ (tv : List String) (dc : Cnt) (fin : List String) (a b : Nat),
      occ k tv = 0 →
      (k ∈ (updatePhase dns dc fin tv a b).finalRules ↔ k ∈ fin) := by
  intro tv
  induction tv with
  | nil => intro dc fin a b _; simp [updatePhase]
  | cons r rest ih =>
    intro dc fin a b hocc
    have hr : r ≠ k := by
      intro e
      rw [occ, if_pos e] at hocc
      omega
    have hrest : occ k rest = 0 := by
      rw [occ, if_neg hr] at hocc
      omega
    have hins : k ∈ sInsert fin r ↔ k ∈ fin := by
      rw [mem_sInsert]
      exact or_iff_right (fun e => hr e.symm)
    have hera : k ∈ sErase fin r ↔ k ∈ fin := by
      rw [mem_sErase]
      exact and_iff_left (fun e => hr e.symm)
    by_cases hok : (check_domain dns r).isSome
    · rw [updatePhase, if_pos hok, ih _ _ _ _ hrest, hins]
    · by_cases h4 : DELETE_THRESHOLD ≤ cGetD dc r 0 + 1
      · simp only [updatePhase, if_neg hok, if_pos h4]
        rw [ih _ _ _ _ hrest, hera]
      · simp only [updatePhase, if_neg hok, if_neg h4]
        rw [ih _ _ _ _ hrest]

theorem up_fin_one (dns : String → DnsRes) (k : String) :
    ∀ (tv : List String) (dc : Cnt) (fin : List String) (a b : Nat),
      occ k tv = 1 →
      (k ∈ (updatePhase dns dc fin tv a b).finalRules ↔
        ((check_domain dns k).isSome = true ∨
          ((check_domain dns k).isSome = false ∧
            cGetD dc k 0 + 1 < DELETE_THRESHOLD ∧ k ∈ fin))) := by
  intro tv
  induction tv with
  | nil => intro dc fin a b hocc; simp [occ] at hocc
  | cons r rest ih =>
    intro dc fin a b hocc
    by_cases hr : r = k
    · subst hr
      have hrest : occ r rest = 0 := by
        rw [occ, if_pos rfl] at hocc
        omega
      by_cases hok : (check_domain dns r).isSome
      · rw [updatePhase, if_pos hok, up_fin_frame dns r _ _ _ _ _ hrest]
        simp [hok, mem_sInsert]
      · have hok' : (check_domain dns r).isSome = false := by
          simpa using hok
        by_cases h4 : DELETE_THRESHOLD ≤ cGetD dc r 0 + 1
        · have hnlt : ¬ (cGetD dc r 0 + 1 < DELETE_THRESHOLD) := by omega
          simp only [updatePhase, if_neg hok, if_pos h4]
          rw [up_fin_frame dns r _ _ _ _ _ hrest, mem_sErase]
          simp [hok', hnlt]
        · have hlt : cGetD dc r 0 + 1 < DELETE_THRESHOLD := by omega
          simp only [updatePhase, if_neg hok, if_neg h4]
          rw [up_fin_frame dns r _ _ _ _ _ hrest]
          simp [hok', hlt]
    · have hrest : occ k rest = 1 := by
        rw [occ, if_neg hr] at hocc
        omega
      have hins : k ∈ sInsert fin r ↔ k ∈ fin := by
        rw [mem_sInsert]
        exact or_iff_right (fun e => hr e.symm)
      have hera : k ∈ sErase fin r ↔ k ∈ fin := by
        rw [mem_sErase]
        exact and_iff_left (fun e => hr e.symm)
      have hcg : ∀ v : Nat, cGetD (cSet dc r v) k 0 = cGetD dc k 0 := by
        intro v
        simp [cGetD, cLookup_cSet, hr]
      by_cases hok : (check_domain dns r).isSome
      · rw [updatePhase, if_pos hok, ih _ _ _ _ hrest, hcg, hins]
      · by_cases h4 : DELETE_THRESHOLD ≤ cGetD dc r 0 + 1
        · simp only [updatePhase, if_neg hok, if_pos h4]
          rw [ih _ _ _ _ hrest, hcg, hera]
        · simp only [updatePhase, if_neg hok, if_neg h4]
          rw [ih _ _ _ _ hrest, hcg]

theorem up_mem_ok (dns : String → DnsRes) (k : String)
    (hok : (check_domain dns k).isSome = true) :
    ∀ (tv : List String) (dc : Cnt) (fin : List String) (a b : Nat), k ∈ tv →
      k ∈ (updatePhase dns dc fin tv a b).finalRules ∧
        cLookup (updatePhase dns dc fin tv a b).dc k = some 0 := by
  intro tv
  induction tv with
  | nil => intro dc fin a b h; cases h
  | cons r rest ih =>
    intro dc fin a b hmem
    by_cases hk : k ∈ rest
    · by_cases hokr : (check_domain dns r).isSome
      · rw [updatePhase, if_pos hokr]
        exact ih _ _ _ _ hk
      · by_cases h4 : DELETE_THRESHOLD ≤ cGetD dc r 0 + 1
        · simp only [updatePhase, if_neg hokr, if_pos h4]
          exact ih _ _ _ _ hk
        · simp only [updatePhase, if_neg hokr, if_neg h4]
          exact ih _ _ _ _ hk
    · have hr : r = k := by
        rcases List.mem_cons.mp hmem with e | e
        · exact e.symm
        · exact absurd e hk
      subst hr
      have hrest : occ r rest = 0 := occ_eq_zero.mpr hk
      rw [updatePhase, if_pos (by simp [hok])]
      constructor
      · rw [up_fin_frame dns r _ _ _ _ _ hrest, mem_sInsert]
        exact Or.inl rfl
      · rw [up_dc dns r _ _ _ _ _, hrest]
        simp [iterStep, cLookup_cSet]

theorem sp_char (k : String) :
    ∀ (ls : List String) (dc : Cnt),
      cLookup (skipPhase dc ls).1 k = (skipIter (occ k ls) (cLookup dc k)).1 ∧
        occ k (skipPhase dc ls).2 = (skipIter (occ k ls) (cLookup dc k)).2 := by
  intro ls
  induction ls with
  | nil => intro dc; simp [skipPhase, occ, skipIter]
  | cons r rest ih =>
    intro dc
    by_cases hr : r = k
    · subst hr
      by_cases h7 : cGetD dc r 4 < 7
      · have h7' : (cLookup dc r).getD 4 < 7 := h7
        have hop : skipOp (cLookup dc r) = cLookup dc r := by
          unfold skipOp
          rw [if_pos h7']
        have hem : skipEmit (cLookup dc r) = 1 := by
          unfold skipEmit
          rw [if_pos h7']
        rw [skipPhase, if_pos h7]
        simp [occ, skipIter, hop, hem, (ih dc).1, (ih dc).2]
      · have h7' : ¬ (cLookup dc r).getD 4 < 7 := h7
        have hop : skipOp (cLookup dc r) = some ((cLookup dc r).getD 4 + 1) := by
          unfold skipOp
          rw [if_neg h7']
        have hem : skipEmit (cLookup dc r) = 0 := by
          unfold skipEmit
          rw [if_neg h7']
        have hlk : cLookup (cSet dc r (cGetD dc r 4 + 1)) r = some ((cLookup dc r).getD 4 + 1) := by
          rw [cLookup_cSet]
          simp [cGetD]
        have h1 := (ih (cSet dc r (cGetD dc r 4 + 1))).1
        have h2 := (ih (cSet dc r (cGetD dc r 4 + 1))).2
        rw [hlk] at h1 h2
        rw [skipPhase, if_neg h7]
        simp [occ, skipIter, hop, hem, h1, h2]
    · by_cases h7 : cGetD dc r 4 < 7
      · rw [skipPhase, if_pos h7]
        simp [occ, hr, (ih dc).1, (ih dc).2]
      · have hlk : cLookup (cSet dc r (cGetD dc r 4 + 1)) k = cLookup dc k := by
          rw [cLookup_cSet, if_neg hr]
        rw [skipPhase, if_neg h7]
        simp [occ, hr, hlk,
          (ih (cSet dc r (cGetD dc r 4 + 1))).1, (ih (cSet dc r (cGetD dc r 4 + 1))).2]

/-! ### Per-key characterization of one full `process_part` run -/

theorem part_dc_char (dns : String → DnsRes) (lines old : List String) (dc : Cnt)
    (k : String) :
    cLookup (process_part dns lines old dc).dc k =
      iterStep ((check_domain dns k).isSome)
        ((skipIter (occ k lines) (cLookup dc k)).2)
        ((skipIter (occ k lines) (cLookup dc k)).1) := by
  unfold process_part
  rw [up_dc dns k _ _ _ _ _, (sp_char k lines dc).1, (sp_char k lines dc).2]

theorem part_dc_frame (dns : String → DnsRes) (lines old : List String) (dc : Cnt)
    {k : String} (h : k ∉ lines) :
    cLookup (process_part dns lines old dc).dc k = cLookup dc k := by
  rw [part_dc_char, occ_eq_zero.mpr h]
  simp [skipIter, iterStep]

theorem part_tv_occ (dns : String → DnsRes) (lines old : List String) (dc : Cnt)
    (k : String) :
    occ k (process_part dns lines old dc).toValidate =
      (skipIter (occ k lines) (cLookup dc k)).2 := by
  unfold process_part
  exact (sp_char k lines dc).2

theorem part_fin_frame (dns : String → DnsRes) (lines old : List String) (dc : Cnt)
    {k : String} (h : k ∉ lines) :
    (k ∈ (process_part dns lines old dc).finalRules ↔ k ∈ old) ∧
      k ∉ (process_part dns lines old dc).toValidate := by
  have hocc : occ k (process_part dns lines old dc).toValidate = 0 := by
    rw [part_tv_occ, occ_eq_zero.mpr h]
    simp [skipIter]
  constructor
  · unfold process_part at hocc ⊢
    exact up_fin_frame dns k _ _ _ _ _ hocc
  · exact occ_eq_zero.mp hocc

theorem round_probed_ok (dns : String → DnsRes) {lines : List String}
    (old : List String) (dc : Cnt) {k : String}
    (hN : lines.Nodup) (hk : k ∈ lines)
    (h7 : (cLookup dc k).getD 4 < 7) (hok : (check_domain dns k).isSome = true) :
    k ∈ (process_part dns lines old dc).toValidate ∧
      k ∈ (process_part dns lines old dc).finalRules ∧
      cLookup (process_part dns lines old dc).dc k = some 0 := by
  have hocc : occ k lines = 1 := occ_nodup_mem hN hk
  have hsk : skipIter 1 (cLookup dc k) = (cLookup dc k, 1) := by
    simp [skipIter, skipOp, skipEmit, if_pos h7]
  have htv : occ k (process_part dns lines old dc).toValidate = 1 := by
    rw [part_tv_occ, hocc, hsk]
  have hmem : k ∈ (process_part dns lines old dc).toValidate := by
    have := occ_eq_zero (k := k) (l := (process_part dns lines old dc).toValidate)
    by_contra hno
    rw [this.mpr hno] at htv
    omega
  refine ⟨hmem, ?_, ?_⟩
  · unfold process_part at htv ⊢
    rw [up_fin_one dns k _ _ _ _ _ htv]
    exact Or.inl hok
  · rw [part_dc_char, hocc, hsk]
    simp [iterStep, failStep, hok]

theorem round_probed_fail (dns : String → DnsRes) {lines : List String}
    (old : List String) (dc : Cnt) {k : String}
    (hN : lines.Nodup) (hk : k ∈ lines)
    (h7 : (cLookup dc k).getD 4 < 7) (hok : (check_domain dns k).isSome = false) :
    k ∈ (process_part dns lines old dc).toValidate ∧
      cLookup (process_part dns lines old dc).dc k = some ((cLookup dc k).getD 0 + 1) ∧
      (k ∈ (process_part dns lines old dc).finalRules ↔
        ((cLookup dc k).getD 0 + 1 < DELETE_THRESHOLD ∧ k ∈ old)) := by
  have hocc : occ k lines = 1 := occ_nodup_mem hN hk
  have hsk : skipIter 1 (cLookup dc k) = (cLookup dc k, 1) := by
    simp [skipIter, skipOp, skipEmit, if_pos h7]
  have htv : occ k (process_part dns lines old dc).toValidate = 1 := by
    rw [part_tv_occ, hocc, hsk]
  have hmem : k ∈ (process_part dns lines old dc).toValidate := by
    have := occ_eq_zero (k := k) (l := (process_part dns lines old dc).toValidate)
    by_contra hno
    rw [this.mpr hno] at htv
    omega
  have hs1 : cLookup (skipPhase dc lines).1 k = cLookup dc k := by
    rw [(sp_char k lines dc).1, hocc, hsk]
  refine ⟨hmem, ?_, ?_⟩
  · rw [part_dc_char, hocc, hsk]
    simp [iterStep, failStep, hok]
  · unfold process_part at htv ⊢
    rw [up_fin_one dns k _ _ _ _ _ htv]
    simp [hok, cGetD, hs1]

theorem round_skipped (dns : String → DnsRes) {lines : List String}
    (old : List String) (dc : Cnt) {k : String}
    (hN : lines.Nodup) (hk : k ∈ lines)
    (h7 : ¬ (cLookup dc k).getD 4 < 7) :
    k ∉ (process_part dns lines old dc).toValidate ∧
      cLookup (process_part dns lines old dc).dc k = some ((cLookup dc k).getD 4 + 1) ∧
      (k ∈ (process_part dns lines old dc).finalRules ↔ k ∈ old) := by
  have hocc : occ k lines = 1 := occ_nodup_mem hN hk
  have hsk : skipIter 1 (cLookup dc k) = (some ((cLookup dc k).getD 4 + 1), 0) := by
    simp [skipIter, skipOp, skipEmit, if_neg h7]
  have htv : occ k (process_part dns lines old dc).toValidate = 0 := by
    rw [part_tv_occ, hocc, hsk]
  refine ⟨occ_eq_zero.mp htv, ?_, ?_⟩
  · rw [part_dc_char, hocc, hsk]
    simp [iterStep]
  · unfold process_part at htv ⊢
    exact up_fin_frame dns k _ _ _ _ _ htv

/-! ### Per-key characterization of one `validate_part` run -/

theorem vfold_frame (dns : String → DnsRes) (lines old : List String) (dc : Cnt)
    (k : String) :
    ∀ (cs : List String) (acc : VOut), k ∉ cs →
      cLookup (cs.foldl (vStep dns lines old dc) acc).ndc k = cLookup acc.ndc k ∧
        (k ∈ (cs.foldl (vStep dns lines old dc) acc).finalRules ↔
          k ∈ acc.finalRules) := by
  intro cs
  induction cs with
  | nil => intro acc _; simp
  | cons r rest ih =>
    intro acc hk
    have hr : r ≠ k := fun e => hk (e ▸ List.mem_cons_self r rest)
    have hrest : k ∉ rest := fun h => hk (List.mem_cons_of_mem r h)
    rw [List.foldl_cons]
    refine ⟨?_, ?_⟩
    · rw [(ih _ hrest).1]
      unfold vStep
      by_cases hcond : r ∈ lines ∧ (check_domain dns r).isSome = true
      · simp only [if_pos hcond]
        rw [cLookup_cSet, if_neg hr]
      · by_cases h4 : DELETE_THRESHOLD ≤ cGetD dc r 0 + 1
        · simp only [if_neg hcond, if_pos h4]
          rw [cLookup_cSet, if_neg hr]
        · simp only [if_neg hcond, if_neg h4]
          rw [cLookup_cSet, if_neg hr]
    · rw [(ih _ hrest).2]
      have hins : k ∈ sInsert acc.finalRules r ↔ k ∈ acc.finalRules := by
        rw [mem_sInsert]
        exact or_iff_right (fun e => hr e.symm)
      unfold vStep
      by_cases hcond : r ∈ lines ∧ (check_domain dns r).isSome = true
      · simp only [if_pos hcond]
        exact hins
      · by_cases h4 : DELETE_THRESHOLD ≤ cGetD dc r 0 + 1
        · simp only [if_neg hcond, if_pos h4]
        · simp only [if_neg hcond, if_neg h4]
          exact hins

theorem vfold_mem (dns : String → DnsRes) (lines old : List String) (dc : Cnt)
    (k : String) :
    ∀ (cs : List String) (acc : VOut), cs.Nodup → k ∈ cs →
      cLookup (cs.foldl (vStep dns lines old dc) acc).ndc k =
        some (if k ∈ lines ∧ (check_domain dns k).isSome = true then 0
              else cGetD dc k 0 + 1) ∧
        (k ∈ (cs.foldl (vStep dns lines old dc) acc).finalRules ↔
          (k ∈ acc.finalRules ∨
            (k ∈ lines ∧ (check_domain dns k).isSome = true) ∨
            (¬ (k ∈ lines ∧ (check_domain dns k).isSome = true) ∧
              cGetD dc k 0 + 1 < DELETE_THRESHOLD))) := by
  intro cs
  induction cs with
  | nil => intro acc _ h; cases h
  | cons r rest ih =>
    intro acc hN hk
    rcases List.nodup_cons.mp hN with ⟨hrni, hNr⟩
    rw [List.foldl_cons]
    by_cases hkr : k ∈ rest
    · have hrk : r ≠ k := fun e => hrni (e ▸ hkr)
      have h1 := ih (vStep dns lines old dc acc r) hNr hkr
      refine ⟨h1.1, ?_⟩
      rw [h1.2]
      have hins : k ∈ (vStep dns lines old dc acc r).finalRules ↔
          k ∈ acc.finalRules := by
        unfold vStep
        by_cases hcond : r ∈ lines ∧ (check_domain dns r).isSome = true
        · simp only [if_pos hcond]
          rw [mem_sInsert]
          exact or_iff_right (fun e => hrk e.symm)
        · by_cases h4 : DELETE_THRESHOLD ≤ cGetD dc r 0 + 1
          · simp only [if_neg hcond, if_pos h4]
          · simp only [if_neg hcond, if_neg h4]
            rw [mem_sInsert]
            exact or_iff_right (fun e => hrk e.symm)
      rw [hins]
    · have hrk : r = k := by
        rcases List.mem_cons.mp hk with e | e
        · exact e.symm
        · exact absurd e hkr
      subst hrk
      have hfr := vfold_frame dns lines old dc r rest (vStep dns lines old dc acc r) hkr
      refine ⟨?_, ?_⟩
      · rw [hfr.1]
        unfold vStep
        by_cases hcond : r ∈ lines ∧ (check_domain dns r).isSome = true
        · simp only [if_pos hcond]
          rw [cLookup_cSet, if_pos rfl]
        · by_cases h4 : DELETE_THRESHOLD ≤ cGetD dc r 0 + 1
          · simp only [if_neg hcond, if_pos h4]
            rw [cLookup_cSet, if_pos rfl]
          · simp only [if_neg hcond, if_neg h4]
            rw [cLookup_cSet, if_pos rfl]
      · rw [hfr.2]
        unfold vStep
        by_cases hcond : r ∈ lines ∧ (check_domain dns r).isSome = true
        · simp only [if_pos hcond]
          rw [mem_sInsert]
          simp [hcond]
        · by_cases h4 : DELETE_THRESHOLD ≤ cGetD dc r 0 + 1
          · have hnlt : ¬ (cGetD dc r 0 + 1 < DELETE_THRESHOLD) := by omega
            simp only [if_neg hcond, if_pos h4]
            simp [hcond, hnlt]
          · have hlt : cGetD dc r 0 + 1 < DELETE_THRESHOLD := by omega
            simp only [if_neg hcond, if_neg h4]
            rw [mem_sInsert]
            simp [hcond, hlt]

theorem validate_char (dns : String → DnsRes) (lines old : List String) (dc : Cnt)
    {k : String} (hk : k ∈ old ∨ k ∈ lines) :
    cLookup (validate_core dns lines old dc).ndc k =
      some (if k ∈ lines ∧ (check_domain dns k).isSome = true then 0
            else cGetD dc k 0 + 1) ∧
      (k ∈ (validate_core dns lines old dc).finalRules ↔
        ((k ∈ lines ∧ (check_domain dns k).isSome = true) ∨
          (¬ (k ∈ lines ∧ (check_domain dns k).isSome = true) ∧
            cGetD dc k 0 + 1 < DELETE_THRESHOLD))) := by
  have hmem : k ∈ (old ++ lines).dedup := by
    rw [List.mem_dedup, List.mem_append]
    exact hk
  have h := vfold_mem dns lines old dc k ((old ++ lines).dedup) ⟨[], [], 0, 0⟩
    (List.nodup_dedup _) hmem
  unfold validate_core
  refine ⟨h.1, ?_⟩
  rw [h.2]
  simp

/-! ### The output order is a total preorder (for the sortedness theorem) -/

theorem lexLe_total : ∀ a b : List Char, lexLe a b = true ∨ lexLe b a = true := by
  intro a
  induction a with
  | nil => intro b; exact Or.inl rfl
  | cons x xs ih =>
    intro b
    cases b with
    | nil => exact Or.inr rfl
    | cons y ys =>
      by_cases hxy : x = y
      · subst hxy
        rcases ih ys with h | h
        · exact Or.inl (by rw [lexLe, if_pos rfl]; exact h)
        · exact Or.inr (by rw [lexLe, if_pos rfl]; exact h)
      · rcases Ne.lt_or_lt hxy with h | h
        · refine Or.inl ?_
          rw [lexLe, if_neg hxy]
          exact decide_eq_true h
        · refine Or.inr ?_
          rw [lexLe, if_neg (fun e => hxy e.symm)]
          exact decide_eq_true h

theorem lexLe_trans : ∀ a b c : List Char,
    lexLe a b = true → lexLe b c = true → lexLe a c = true := by
  intro a
  induction a with
  | nil => intro b c _ _; rfl
  | cons x xs ih =>
    intro b c hab hbc
    cases b with
    | nil => rw [lexLe] at hab; cases hab
    | cons y ys =>
      cases c with
      | nil => rw [lexLe] at hbc; cases hbc
      | cons z zs =>
        by_cases hxy : x = y
        · subst hxy
          rw [lexLe, if_pos rfl] at hab
          by_cases hyz : x = z
          · subst hyz
            rw [lexLe, if_pos rfl] at hbc ⊢
            exact ih ys zs hab hbc
          · rw [lexLe, if_neg hyz] at hbc ⊢
            exact hbc
        · rw [lexLe, if_neg hxy] at hab
          have hlt : x < y := of_decide_eq_true hab
          by_cases hyz : y = z
          · subst hyz
            rw [lexLe, if_neg hxy]
            exact decide_eq_true hlt
          · rw [lexLe, if_neg hyz] at hbc
            have hlt' : y < z := of_decide_eq_true hbc
            have hxz : x < z := lt_trans hlt hlt'
            rw [lexLe, if_neg (ne_of_lt hxz)]
            exact decide_eq_true hxz

instance : IsTotal String pyLe :=
  ⟨fun a b => lexLe_total a.data b.data⟩

instance : IsTrans String pyLe :=
  ⟨fun a b c => lexLe_trans a.data b.data c.data⟩

/-! ### Skip-round bookkeeping of `filter_and_update_high_delete_count_rules` -/

theorem fu_single_high (r : String) (v : Nat) (h : 7 ≤ v) :
    filter_and_update_high_delete_count_rules [(r, v)] [r] =
      ([], [(r, if 17 ≤ v + 1 then 5 else v + 1)]) := by
  have hv : cGetD [(r, v)] r 4 = v := by
    simp [cGetD, cLookup]
  have hn : ¬ v < 7 := by omega
  have hset : cSet [(r, v)] r (if 17 ≤ v + 1 then 5 else v + 1) =
      [(r, if 17 ≤ v + 1 then 5 else v + 1)] := by
    rw [cSet, if_pos rfl]
  unfold filter_and_update_high_delete_count_rules
  rw [List.foldl_cons, List.foldl_nil]
  simp only [hv, if_neg hn, hset]

theorem fu_single_low (r : String) (v : Nat) (h : v < 7) :
    filter_and_update_high_delete_count_rules [(r, v)] [r] = ([r], [(r, v)]) := by
  have hv : cGetD [(r, v)] r 4 = v := by
    simp [cGetD, cLookup]
  unfold filter_and_update_high_delete_count_rules
  rw [List.foldl_cons, List.foldl_nil]
  simp only [hv, if_pos h]
  simp

theorem filterRounds_val (r : String) :
    ∀ (m c : Nat), 7 ≤ c → c + m ≤ 16 →
      filterRounds [r] [(r, c)] m = [(r, c + m)] := by
  intro m
  induction m with
  | zero => intro c _ _; rfl
  | succ m ih =>
    intro c h7 h16
    have hno : ¬ 17 ≤ c + 1 := by omega
    rw [filterRounds, fu_single_high r c h7]
    simp only [if_neg hno]
    have harith : c + 1 + m = c + (m + 1) := by omega
    rw [ih (c + 1) (by omega) (by omega), harith]

theorem filterRounds_reset (r : String) :
    ∀ (n c : Nat), 7 ≤ c → c + n = 16 →
      filterRounds [r] [(r, c)] (n + 1) = [(r, 5)] := by
  intro n
  induction n with
  | zero =>
    intro c h7 h16
    have hc : c = 16 := by omega
    subst hc
    rw [filterRounds, fu_single_high r 16 (by omega)]
    simp [filterRounds]
  | succ n ih =>
    intro c h7 h16
    have hno : ¬ 17 ≤ c + 1 := by omega
    rw [filterRounds, fu_single_high r c h7]
    simp only [if_neg hno]
    exact ih (c + 1) (by omega) (by omega)

/-! ### Claim theorems -/

/-- C6 counterexample: the rule `"||^"` has an empty extracted domain, yet even
with a resolver that answers every query (`fun _ => ok`) `check_domain`
classifies it as invalid (`None`), and one `process_part` round gives it a
probe-failure count of 1 — refuting the claim that empty-domain rules are
reported RESOLVED, counted valid and never accrue a probe failure. -/
theorem c6_counterexample :
    extractDomain "||^" = "" ∧
    check_domain (fun _ => DnsRes.ok) "||^" = none ∧
    cLookup (process_part (fun _ => DnsRes.ok) ["||^"] [] []).dc "||^" = some 1 := by
  decide

/-- C6 (amended): a rule whose extracted domain is empty is never submitted to
the resolver — the outcome is independent of the DNS oracle — but it is
classified as invalid (`None`, i.e. UNRESOLVED), not RESOLVED. -/
theorem c6_empty_domain (dns dns' : String → DnsRes) (rule : String)
    (h : extractDomain rule = "") :
    check_domain dns rule = none ∧ check_domain dns rule = check_domain dns' rule := by
  constructor <;> simp [check_domain, h]

/-- C6 witness: `c6_empty_domain` applied to the concrete rule `"||^"`. -/
theorem c6_empty_domain_witness :
    extractDomain "||^" = "" ∧
    (check_domain (fun _ => DnsRes.ok) "||^" = none ∧
      check_domain (fun _ => DnsRes.ok) "||^" =
        check_domain (fun _ => DnsRes.nxdomain) "||^") :=
  ⟨by decide,
    c6_empty_domain (fun _ => DnsRes.ok) (fun _ => DnsRes.nxdomain) "||^" (by decide)⟩

/-- C7 counterexample: `validate.py::check_domain` (bare `except`) returns
`None` (UNRESOLVED) on a timeout, although a timeout is not NXDOMAIN —
refuting the claim that the probe returns UNRESOLVED exactly on NXDOMAIN. -/
theorem c7_counterexample :
    ¬ ((check_domain (fun _ => DnsRes.timeout) "x.com" = none) ↔
        DnsRes.timeout = DnsRes.nxdomain) := by
  decide

/-- C7 (amended): only `fast_validate.py::is_valid_domain` implements the
NXDOMAIN-only policy; `validate.py`/`split_and_check_16.py::check_domain`
treat every non-success (timeout, SERVFAIL, REFUSED, no-answer) as
UNRESOLVED, and `split_and_validate.py::validate_dns` returns `False` for
NoAnswer/NXDOMAIN/Timeout while other errors escape uncaught. -/
theorem c7_error_policy :
    (∀ e, is_valid_domain (fun _ => e) "x.com" = false ↔ e = DnsRes.nxdomain) ∧
    (∀ e, check_domain (fun _ => e) "x.com" = none ↔ e ≠ DnsRes.ok) ∧
    (∀ e, sv_validate_dns e = Except.ok false ↔
      (e = DnsRes.noAnswer ∨ e = DnsRes.nxdomain ∨ e = DnsRes.timeout)) :=
  ⟨fun e => by cases e <;> decide, fun e => by cases e <;> decide,
    fun e => by cases e <;> simp [sv_validate_dns]⟩

/-- C8 counterexample: on a malformed state file, `validate.py`'s and
`split_and_validate.py`'s loaders raise (`json.load` is unguarded) instead of
returning an empty store — refuting the claim that loading never fails. -/
theorem c8_counterexample :
    load_delete_counter FileState.malformed = Except.error "JSONDecodeError" ∧
    sv_load_delete_counter FileState.malformed = Except.error "JSONDecodeError" :=
  ⟨rfl, rfl⟩

/-- C8 (amended): only `split_and_check_16.py::load_json` recovers from both a
missing and a malformed state file; the other two loaders recover only from a
missing file and propagate the parse exception on malformed content. -/
theorem c8_load_behaviour :
    load_json FileState.missing = [] ∧
    load_json FileState.malformed = [] ∧
    (∀ m, load_json (FileState.wellFormed m) = m) ∧
    load_delete_counter FileState.missing = Except.ok [] ∧
    sv_load_delete_counter FileState.missing = Except.ok [] ∧
    load_delete_counter FileState.malformed = Except.error "JSONDecodeError" ∧
    sv_load_delete_counter FileState.malformed = Except.error "JSONDecodeError" :=
  ⟨rfl, rfl, fun _ => rfl, rfl, rfl, rfl, rfl⟩

/-- C9 counterexample: `fast_validate.py::validate_batch` writes the valid
rules in input order, not sorted — on input `["b.com", "a.com"]` with an
always-resolving oracle the output file is `["b.com", "a.com"]`, which is not
sorted. -/
theorem c9_counterexample :
    validate_batch (fun _ => DnsRes.ok) ["b.com", "a.com"] = ["b.com", "a.com"] ∧
    ¬ List.Sorted pyLe (validate_batch (fun _ => DnsRes.ok) ["b.com", "a.com"]) := by
  decide

/-- C9 (amended): the retained-rule files written by
`split_and_check_16.py::process_part` and `validate.py::validate_part` are
sorted and contain exactly the retained rules; `fast_validate.py` (see the
counterexample) writes in input order instead. -/
theorem c9_sorted_output (dns : String → DnsRes) (lines old : List String) (dc : Cnt) :
    (List.Sorted pyLe (process_part_out dns lines old dc) ∧
      ∀ s, s ∈ process_part_out dns lines old dc ↔
        s ∈ (process_part dns lines old dc).finalRules) ∧
    (List.Sorted pyLe (validate_part_out dns lines old dc) ∧
      ∀ s, s ∈ validate_part_out dns lines old dc ↔
        s ∈ (validate_core dns lines old dc).finalRules) := by
  refine ⟨⟨List.sorted_insertionSort pyLe _, fun s => ?_⟩,
    ⟨List.sorted_insertionSort pyLe _, fun s => ?_⟩⟩
  · unfold process_part_out sortedOutput
    rw [List.mem_insertionSort, List.mem_dedup]
  · unfold validate_part_out sortedOutput
    rw [List.mem_insertionSort, List.mem_dedup]

/-- C5: a rule that is queued for probing and whose probe resolves ends the
round with failure counter 0 and inside the retained set, whatever its prior
counter — in both `split_and_check_16.py::process_part` and
`validate.py::validate_part`.  Since a counter of 0 keeps the rule queued on
the next round, a rule that resolves every round stays retained with counter 0
after every round. -/
theorem c5_resolved_reset (dns : String → DnsRes) (lines old vlines vold : List String)
    (dc vdc : Cnt) (r : String)
    (htv : r ∈ (process_part dns lines old dc).toValidate)
    (hok : (check_domain dns r).isSome = true)
    (hvl : r ∈ vlines) :
    (r ∈ (process_part dns lines old dc).finalRules ∧
      cLookup (process_part dns lines old dc).dc r = some 0) ∧
    (r ∈ (validate_core dns vlines vold vdc).finalRules ∧
      cLookup (validate_core dns vlines vold vdc).ndc r = some 0) := by
  constructor
  · unfold process_part at htv ⊢
    exact up_mem_ok dns r hok _ _ _ _ _ htv
  · have hvc := validate_char dns vlines vold vdc (Or.inr hvl)
    have hcond : r ∈ vlines ∧ (check_domain dns r).isSome = true := ⟨hvl, hok⟩
    refine ⟨?_, ?_⟩
    · rw [hvc.2]
      exact Or.inl hcond
    · rw [hvc.1, if_pos hcond]

/-- C5 witness: `c5_resolved_reset` at a concrete resolving rule with a stale
counter of 3. -/
theorem c5_resolved_reset_witness :
    "x.com" ∈ (process_part (fun _ => DnsRes.ok) ["x.com"] [] [("x.com", 3)]).toValidate ∧
    (check_domain (fun _ => DnsRes.ok) "x.com").isSome = true ∧
    "x.com" ∈ (["x.com"] : List String) ∧
    (("x.com" ∈ (process_part (fun _ => DnsRes.ok) ["x.com"] [] [("x.com", 3)]).finalRules ∧
      cLookup (process_part (fun _ => DnsRes.ok) ["x.com"] [] [("x.com", 3)]).dc "x.com" =
        some 0) ∧
    ("x.com" ∈ (validate_core (fun _ => DnsRes.ok) ["x.com"] [] [("x.com", 3)]).finalRules ∧
      cLookup (validate_core (fun _ => DnsRes.ok) ["x.com"] [] [("x.com", 3)]).ndc "x.com" =
        some 0)) :=
  ⟨by decide, by decide, by decide,
    c5_resolved_reset (fun _ => DnsRes.ok) ["x.com"] [] ["x.com"] [] [("x.com", 3)]
      [("x.com", 3)] "x.com" (by decide) (by decide) (by decide)⟩

/-- C2 counterexample: `validate.py::validate_part` persists
`new_delete_counter`, which holds entries only for this run's candidate rules;
a counter entry belonging to a disjoint shard (`"other.com"`, counter 2) is
present before the run and absent from the written map — the write-back drops
it, refuting the merge-safety claim for this variant. -/
theorem c2_counterexample :
    cLookup [("other.com", 2)] "other.com" = some 2 ∧
    "other.com" ∉ (["a.com"] : List String) ∧
    cLookup (validate_core (fun _ => DnsRes.ok) ["a.com"] [] [("other.com", 2)]).ndc
      "other.com" = none := by
  decide

/-- C2 (amended): `split_and_check_16.py::process_part` mutates the loaded map
in place and saves the whole map, so for two runs over disjoint shards the two
sequential read-modify-write cycles commute on every key, and a run leaves
every key outside its shard untouched. -/
theorem c2_merge (dnsA dnsB : String → DnsRes) (linesA linesB oldA oldB : List String)
    (dc : Cnt) (k : String)
    (hdisj : ∀ x, x ∈ linesA → x ∉ linesB) :
    cLookup (process_part dnsB linesB oldB (process_part dnsA linesA oldA dc).dc).dc k =
      cLookup (process_part dnsA linesA oldA (process_part dnsB linesB oldB dc).dc).dc k ∧
    (k ∉ linesA → cLookup (process_part dnsA linesA oldA dc).dc k = cLookup dc k) := by
  refine ⟨?_, fun hA => part_dc_frame dnsA linesA oldA dc hA⟩
  by_cases hA : k ∈ linesA
  · have hB : k ∉ linesB := hdisj k hA
    rw [part_dc_frame dnsB linesB oldB _ hB,
      part_dc_char dnsA linesA oldA dc k,
      part_dc_char dnsA linesA oldA _ k,
      part_dc_frame dnsB linesB oldB dc hB]
  · by_cases hB : k ∈ linesB
    · rw [part_dc_frame dnsA linesA oldA _ hA,
        part_dc_char dnsB linesB oldB dc k,
        part_dc_char dnsB linesB oldB _ k,
        part_dc_frame dnsA linesA oldA dc hA]
    · rw [part_dc_frame dnsB linesB oldB _ hB,
        part_dc_frame dnsA linesA oldA dc hA,
        part_dc_frame dnsA linesA oldA _ hA,
        part_dc_frame dnsB linesB oldB dc hB]

/-- C2 witness: `c2_merge` on two concrete disjoint single-rule shards. -/
theorem c2_merge_witness :
    (∀ x, x ∈ (["a.com"] : List String) → x ∉ (["b.com"] : List String)) ∧
    (cLookup (process_part (fun _ => DnsRes.nxdomain) ["b.com"] []
        (process_part (fun _ => DnsRes.nxdomain) ["a.com"] [] []).dc).dc "a.com" =
      cLookup (process_part (fun _ => DnsRes.nxdomain) ["a.com"] []
        (process_part (fun _ => DnsRes.nxdomain) ["b.com"] [] []).dc).dc "a.com" ∧
    ("a.com" ∉ (["a.com"] : List String) →
      cLookup (process_part (fun _ => DnsRes.nxdomain) ["a.com"] [] []).dc "a.com" =
        cLookup ([] : Cnt) "a.com")) :=
  ⟨by decide,
    c2_merge (fun _ => DnsRes.nxdomain) (fun _ => DnsRes.nxdomain)
      ["a.com"] ["b.com"] [] [] [] "a.com" (by decide)⟩

/-- C3 counterexample: the rule `"x.com"` with counter 3 fails its probe,
reaches the threshold and is dropped from the retained set, yet both scripts
persist its record with value 4 (`process_part` saves the whole mutated map,
`validate_part` writes the incremented count before discarding the rule) —
refuting tombstone-by-absence. -/
theorem c3_counterexample :
    "x.com" ∉ (process_part (fun _ => DnsRes.nxdomain) ["x.com"] ["x.com"]
      [("x.com", 3)]).finalRules ∧
    cLookup (process_part (fun _ => DnsRes.nxdomain) ["x.com"] ["x.com"]
      [("x.com", 3)]).dc "x.com" = some 4 ∧
    "x.com" ∉ (validate_core (fun _ => DnsRes.nxdomain) ["x.com"] ["x.com"]
      [("x.com", 3)]).finalRules ∧
    cLookup (validate_core (fun _ => DnsRes.nxdomain) ["x.com"] ["x.com"]
      [("x.com", 3)]).ndc "x.com" = some 4 := by
  decide

/-- C3 (amended): when a probed rule fails and its incremented counter reaches
`DELETE_THRESHOLD`, the rule is dropped from the retained set but its record
is **kept** in the persisted store with the incremented value (which the skip
logic later relies on), in both `process_part` and `validate_part`. -/
theorem c3_record_kept (dns : String → DnsRes) (lines old vold : List String)
    (dc : Cnt) (r : String) (c : Nat)
    (hN : lines.Nodup) (hr : r ∈ lines) (hc : cLookup dc r = some c) (h7 : c < 7)
    (hok : (check_domain dns r).isSome = false) (h4 : DELETE_THRESHOLD ≤ c + 1) :
    (r ∉ (process_part dns lines old dc).finalRules ∧
      cLookup (process_part dns lines old dc).dc r = some (c + 1)) ∧
    (r ∉ (validate_core dns lines vold dc).finalRules ∧
      cLookup (validate_core dns lines vold dc).ndc r = some (c + 1)) := by
  have h7' : (cLookup dc r).getD 4 < 7 := by rw [hc]; simpa using h7
  have hfail := round_probed_fail dns old dc hN hr h7' hok
  have hvc := validate_char dns lines vold dc (Or.inr hr)
  have hcond : ¬ (r ∈ lines ∧ (check_domain dns r).isSome = true) := by
    rintro ⟨-, ht⟩
    rw [hok] at ht
    cases ht
  constructor
  · refine ⟨?_, ?_⟩
    · rw [hfail.2.2]
      rintro ⟨hlt, -⟩
      rw [hc] at hlt
      simp only [Option.getD_some] at hlt
      omega
    · rw [hfail.2.1, hc]
      rfl
  · refine ⟨?_, ?_⟩
    · rw [hvc.2]
      rintro (⟨-, ht⟩ | ⟨-, hlt⟩)
      · rw [hok] at ht
        cases ht
      · simp only [cGetD, hc, Option.getD_some] at hlt
        omega
    · rw [hvc.1, if_neg hcond]
      simp [cGetD, hc]

/-- C3 witness: `c3_record_kept` at the concrete failing rule of the
counterexample. -/
theorem c3_record_kept_witness :
    ((["x.com"] : List String).Nodup ∧ "x.com" ∈ (["x.com"] : List String) ∧
      cLookup [("x.com", 3)] "x.com" = some 3 ∧ (3 : Nat) < 7 ∧
      (check_domain (fun _ => DnsRes.nxdomain) "x.com").isSome = false ∧
      DELETE_THRESHOLD ≤ 3 + 1) ∧
    (("x.com" ∉ (process_part (fun _ => DnsRes.nxdomain) ["x.com"] ["x.com"]
        [("x.com", 3)]).finalRules ∧
      cLookup (process_part (fun _ => DnsRes.nxdomain) ["x.com"] ["x.com"]
        [("x.com", 3)]).dc "x.com" = some (3 + 1)) ∧
    ("x.com" ∉ (validate_core (fun _ => DnsRes.nxdomain) ["x.com"] []
        [("x.com", 3)]).finalRules ∧
      cLookup (validate_core (fun _ => DnsRes.nxdomain) ["x.com"] []
        [("x.com", 3)]).ndc "x.com" = some (3 + 1))) :=
  ⟨⟨by decide, by decide, by decide, by decide, by decide, by decide⟩,
    c3_record_kept (fun _ => DnsRes.nxdomain) ["x.com"] ["x.com"] [] [("x.com", 3)]
      "x.com" 3 (by decide) (by decide) (by decide) (by decide) (by decide) (by decide)⟩

/-- C1 counterexample: in `validate.py::validate_part` the candidate set is
`old_rules | set(lines)` but only `lines` is probed.  With an empty downloaded
shard and a previously retained rule `"r"` at counter 3, the rule is never
submitted to a DNS probe (even an always-resolving oracle cannot save it), yet
its counter is incremented to the threshold and it is dropped from the
retained output — refuting "a rule is never evicted on a round where it was
not probed (… nor from being absent from the downloaded shard)". -/
theorem c1_counterexample :
    "r" ∈ (["r"] : List String) ∧
    "r" ∉ ([] : List String) ∧
    "r" ∉ (validate_core (fun _ => DnsRes.ok) [] ["r"] [("r", 3)]).finalRules ∧
    cLookup (validate_core (fun _ => DnsRes.ok) [] ["r"] [("r", 3)]).ndc "r" = some 4 := by
  decide

/-- C1 (amended): the claimed equivalence does hold for
`split_and_check_16.py::process_part`: a previously retained rule is missing
from the round's retained set **iff** it was queued for probing (present in
the shard with counter below the skip threshold 7), its probe failed, and the
incremented counter reached `DELETE_THRESHOLD`; skipped rules and rules absent
from the shard are always retained there.  (`validate.py` violates the claim,
see the counterexample.) -/
theorem c1_eviction_iff (dns : String → DnsRes) (lines old : List String)
    (dc : Cnt) (r : String) (hN : lines.Nodup) (hold : r ∈ old) :
    (r ∉ (process_part dns lines old dc).finalRules ↔
      (r ∈ lines ∧ (cLookup dc r).getD 4 < 7 ∧
        (check_domain dns r).isSome = false ∧
        DELETE_THRESHOLD ≤ (cLookup dc r).getD 0 + 1)) := by
  by_cases hr : r ∈ lines
  · by_cases h7 : (cLookup dc r).getD 4 < 7
    · by_cases hok : (check_domain dns r).isSome = true
      · have h := (round_probed_ok dns old dc hN hr h7 hok).2.1
        constructor
        · intro hno
          exact absurd h hno
        · rintro ⟨-, -, hf, -⟩
          rw [hok] at hf
          cases hf
      · have hok' : (check_domain dns r).isSome = false := by
          simpa using hok
        have h := (round_probed_fail dns old dc hN hr h7 hok').2.2
        rw [h]
        constructor
        · intro hno
          refine ⟨hr, h7, hok', ?_⟩
          by_contra hlt
          exact hno ⟨by omega, hold⟩
        · rintro ⟨-, -, -, h4⟩ ⟨hlt, -⟩
          omega
    · have h := (round_skipped dns old dc hN hr h7).2.2
      rw [h]
      simp [hold, h7]
  · have h := (part_fin_frame dns lines old dc hr).1
    rw [h]
    simp [hold, hr]

/-- C1 witness: `c1_eviction_iff` at a concrete probed-and-failed rule. -/
theorem c1_eviction_iff_witness :
    (["x.com"] : List String).Nodup ∧ "x.com" ∈ (["x.com"] : List String) ∧
    ("x.com" ∉ (process_part (fun _ => DnsRes.nxdomain) ["x.com"] ["x.com"]
        [("x.com", 3)]).finalRules ↔
      ("x.com" ∈ (["x.com"] : List String) ∧
        (cLookup [("x.com", 3)] "x.com").getD 4 < 7 ∧
        (check_domain (fun _ => DnsRes.nxdomain) "x.com").isSome = false ∧
        DELETE_THRESHOLD ≤ (cLookup [("x.com", 3)] "x.com").getD 0 + 1)) :=
  ⟨by decide, by decide,
    c1_eviction_iff (fun _ => DnsRes.nxdomain) ["x.com"] ["x.com"] [("x.com", 3)]
      "x.com" (by decide) (by decide)⟩

/-- C4 counterexample: `filter_and_update_high_delete_count_rules` resets a
rule whose incremented counter reaches 17 to **5**, not to the claimed
recovery baseline 6. -/
theorem c4_counterexample :
    cLookup (filter_and_update_high_delete_count_rules [("r", 16)] ["r"]).2 "r" =
      some 5 ∧
    cLookup (filter_and_update_high_delete_count_rules [("r", 16)] ["r"]).2 "r" ≠
      some 6 := by
  decide

/-- C4 (amended): there is no separate skip-round counter; the failure counter
itself keeps incrementing while the rule is skipped (counter ≥ 7), and when
the incremented value reaches 17 it is reset to 5.  A rule entering the skip
band at counter `c` (7 ≤ c ≤ 16) is skipped for `17 - c` consecutive rounds —
at most 10 — after which its counter is 5 and the very next round re-probes
it. -/
theorem c4_skip_reset (r : String) (c : Nat) (h7 : 7 ≤ c) (h16 : c ≤ 16) :
    17 - c ≤ 10 ∧
    filterRounds [r] [(r, c)] (17 - c) = [(r, 5)] ∧
    (filter_and_update_high_delete_count_rules
      (filterRounds [r] [(r, c)] (17 - c)) [r]).1 = [r] ∧
    (∀ m, m < 17 - c →
      (filter_and_update_high_delete_count_rules
        (filterRounds [r] [(r, c)] m) [r]).1 = []) := by
  have hsub : 17 - c = (16 - c) + 1 := by omega
  have hreset : filterRounds [r] [(r, c)] (17 - c) = [(r, 5)] := by
    rw [hsub]
    exact filterRounds_reset r (16 - c) c h7 (by omega)
  refine ⟨by omega, hreset, ?_, ?_⟩
  · rw [hreset, fu_single_low r 5 (by omega)]
  · intro m hm
    rw [filterRounds_val r m c h7 (by omega), fu_single_high r (c + m) (by omega)]

/-- C4 witness: `c4_skip_reset` starting from counter 8 (nine skipped rounds,
then reset to 5 and re-probe). -/
theorem c4_skip_reset_witness :
    ((7 : Nat) ≤ 8 ∧ (8 : Nat) ≤ 16) ∧
    (17 - 8 ≤ 10 ∧
      filterRounds ["x"] [("x", 8)] (17 - 8) = [("x", 5)] ∧
      (filter_and_update_high_delete_count_rules
        (filterRounds ["x"] [("x", 8)] (17 - 8)) ["x"]).1 = ["x"] ∧
      (∀ m, m < 17 - 8 →
        (filter_and_update_high_delete_count_rules
          (filterRounds ["x"] [("x", 8)] m) ["x"]).1 = [])) :=
  ⟨⟨by decide, by decide⟩, c4_skip_reset "x" 8 (by decide) (by decide)⟩

/-- One failing probed round advances a rule's counter from `c` to `c + 1` and
retains the rule exactly when the new counter is below the threshold. -/
theorem round_fail_step (dns : String → DnsRes) {lines : List String} {r : String}
    (hN : lines.Nodup) (hr : r ∈ lines) (hok : (check_domain dns r).isSome = false)
    (fins : List String) (m : Cnt) (c : Nat)
    (hm : cLookup m r = some c) (hc7 : c < 7) :
    cLookup (process_part dns lines fins m).dc r = some (c + 1) ∧
      (r ∈ (process_part dns lines fins m).finalRules ↔
        (c + 1 < DELETE_THRESHOLD ∧ r ∈ fins)) := by
  have h7m : (cLookup m r).getD 4 < 7 := by rw [hm]; simpa using hc7
  have h := round_probed_fail dns fins m hN hr h7m hok
  refine ⟨?_, ?_⟩
  · rw [h.2.1, hm]
    rfl
  · rw [h.2.2, hm]
    rfl

/-- `n` consecutive failing rounds below the threshold: the counter advances by
one per round and the rule stays retained. -/
theorem rounds_fail (dns : String → DnsRes) {lines : List String} {r : String}
    (hN : lines.Nodup) (hr : r ∈ lines) (hok : (check_domain dns r).isSome = false) :
    ∀ (n : Nat) (fins : List String) (m : Cnt) (c : Nat),
      cLookup m r = some c → r ∈ fins → c + n < DELETE_THRESHOLD →
      r ∈ (processRounds dns lines (fins, m) n).1 ∧
        cLookup (processRounds dns lines (fins, m) n).2 r = some (c + n) := by
  intro n
  induction n with
  | zero =>
    intro fins m c hm hf _
    exact ⟨hf, hm⟩
  | succ n ih =>
    intro fins m c hm hf hlt
    have hstep := round_fail_step dns hN hr hok fins m c hm
      (by have hD : DELETE_THRESHOLD = 4 := rfl; omega)
    have hf' : r ∈ (process_part dns lines fins m).finalRules :=
      hstep.2.mpr ⟨by omega, hf⟩
    have h := ih (process_part dns lines fins m).finalRules
      (process_part dns lines fins m).dc (c + 1) hstep.1 hf' (by omega)
    have harith : c + 1 + n = c + (n + 1) := by omega
    rw [harith] at h
    exact h

/-- Peeling the last round instead of the first. -/
theorem processRounds_last (dns : String → DnsRes) (lines : List String) :
    ∀ (n : Nat) (st : List String × Cnt),
      processRounds dns lines st (n + 1) =
        ((process_part dns lines (processRounds dns lines st n).1
            (processRounds dns lines st n).2).finalRules,
          (process_part dns lines (processRounds dns lines st n).1
            (processRounds dns lines st n).2).dc) := by
  intro n
  induction n with
  | zero => intro st; rfl
  | succ n ih =>
    intro st
    have h1 : processRounds dns lines st (n + 1 + 1) =
        processRounds dns lines ((process_part dns lines st.1 st.2).finalRules,
          (process_part dns lines st.1 st.2).dc) (n + 1) := rfl
    rw [h1, ih]
    rfl

/-- C10: in `process_part` a rule with no persisted record is seeded with two
different defaults — `delete_counter.get(r, 4)` in the skip check (4 < 7, so a
previously-unseen rule is always queued for probing) and
`delete_counter.get(rule, 0)` in the failure increment (so a first failure
yields counter exactly 1, not 5).  Consequently, starting retained, a rule
failing every round is still retained with counter `n` after rounds 1–3 and is
evicted with counter 4 on its 4th consecutive failed round. -/
theorem c10_default_seeds (dns : String → DnsRes) (lines old : List String)
    (dc : Cnt) (r : String)
    (hN : lines.Nodup) (hr : r ∈ lines) (hnone : cLookup dc r = none) :
    r ∈ (process_part dns lines old dc).toValidate ∧
    ((check_domain dns r).isSome = false →
      cLookup (process_part dns lines old dc).dc r = some 1 ∧
      (r ∈ (process_part dns lines old dc).finalRules ↔ r ∈ old) ∧
      (r ∈ old →
        (r ∈ (processRounds dns lines (old, dc) 3).1 ∧
          cLookup (processRounds dns lines (old, dc) 3).2 r = some 3) ∧
        (r ∉ (processRounds dns lines (old, dc) 4).1 ∧
          cLookup (processRounds dns lines (old, dc) 4).2 r = some 4))) := by
  have h7 : (cLookup dc r).getD 4 < 7 := by rw [hnone]; decide
  constructor
  · by_cases hok : (check_domain dns r).isSome = true
    · exact (round_probed_ok dns old dc hN hr h7 hok).1
    · exact (round_probed_fail dns old dc hN hr h7 (by simpa using hok)).1
  · intro hok
    have h1 := round_probed_fail dns old dc hN hr h7 hok
    have h1dc : cLookup (process_part dns lines old dc).dc r = some 1 := by
      rw [h1.2.1, hnone]
      rfl
    have h1fin : (r ∈ (process_part dns lines old dc).finalRules ↔ r ∈ old) := by
      rw [h1.2.2, hnone]
      simp [DELETE_THRESHOLD]
    refine ⟨h1dc, h1fin, ?_⟩
    intro hold
    have hf1 : r ∈ (process_part dns lines old dc).finalRules := h1fin.mpr hold
    have h3 := rounds_fail dns hN hr hok 2
      (process_part dns lines old dc).finalRules (process_part dns lines old dc).dc
      1 h1dc hf1 (by decide)
    have heq3 : processRounds dns lines (old, dc) 3 =
        processRounds dns lines
          ((process_part dns lines old dc).finalRules,
            (process_part dns lines old dc).dc) 2 := rfl
    have h3' : r ∈ (processRounds dns lines (old, dc) 3).1 ∧
        cLookup (processRounds dns lines (old, dc) 3).2 r = some 3 := by
      rw [heq3]
      exact ⟨h3.1, h3.2⟩
    refine ⟨h3', ?_⟩
    have hstep := round_fail_step dns hN hr hok
      (processRounds dns lines (old, dc) 3).1 (processRounds dns lines (old, dc) 3).2
      3 h3'.2 (by decide)
    rw [processRounds_last dns lines 3 (old, dc)]
    constructor
    · show r ∉ (process_part dns lines (processRounds dns lines (old, dc) 3).1
        (processRounds dns lines (old, dc) 3).2).finalRules
      rw [hstep.2]
      rintro ⟨hlt, -⟩
      exact absurd hlt (by decide)
    · show cLookup (process_part dns lines (processRounds dns lines (old, dc) 3).1
        (processRounds dns lines (old, dc) 3).2).dc r = some 4
      rw [hstep.1]

/-- C10 witness: `c10_default_seeds` on a concrete never-resolving,
previously-unseen rule. -/
theorem c10_default_seeds_witness :
    (["x.com"] : List String).Nodup ∧ "x.com" ∈ (["x.com"] : List String) ∧
    cLookup ([] : Cnt) "x.com" = none ∧
    ("x.com" ∈ (process_part (fun _ => DnsRes.nxdomain) ["x.com"] ["x.com"] []).toValidate ∧
    ((check_domain (fun _ => DnsRes.nxdomain) "x.com").isSome = false →
      cLookup (process_part (fun _ => DnsRes.nxdomain) ["x.com"] ["x.com"] []).dc "x.com" =
        some 1 ∧
      ("x.com" ∈ (process_part (fun _ => DnsRes.nxdomain) ["x.com"] ["x.com"] []).finalRules ↔
        "x.com" ∈ (["x.com"] : List String)) ∧
      ("x.com" ∈ (["x.com"] : List String) →
        ("x.com" ∈ (processRounds (fun _ => DnsRes.nxdomain) ["x.com"] (["x.com"], []) 3).1 ∧
          cLookup (processRounds (fun _ => DnsRes.nxdomain) ["x.com"] (["x.com"], []) 3).2
            "x.com" = some 3) ∧
        ("x.com" ∉ (processRounds (fun _ => DnsRes.nxdomain) ["x.com"] (["x.com"], []) 4).1 ∧
          cLookup (processRounds (fun _ => DnsRes.nxdomain) ["x.com"] (["x.com"], []) 4).2
            "x.com" = some 4)))) :=
  ⟨by decide, by decide, by decide,
    c10_default_seeds (fun _ => DnsRes.nxdomain) ["x.com"] ["x.com"] [] "x.com"
      (by decide) (by decide) (by decide)⟩
